import Mathlib

/-
Shallow embedding of the Bioer mastermix preparation protocols from this
repository: MasterMix_prep.py and MasterMix_prep_stations.py.

Volumes are modelled exactly over the rationals; the Python code computes
them in binary floating point, and at all inputs considered below the two
agree. Sample, column and tube counts are natural numbers. Pure planning
and bookkeeping functions are translated directly from the source; the
few helpers that live in the external covmatic_stations package are
modelled from the spec and marked as such in their doc comments.
-/

/-- Ceiling division on naturals: the value of `math.ceil(a / b)` in the
Python source for nonnegative integer `a` and positive integer `b`. -/
def natCeilDiv (a b : ℕ) : ℕ := (a + b - 1) / b

/-- Per-tube sample shares, translated from the loop shared by
MasterMix_prep.py lines 143-145 and MasterMix_prep_stations.py lines
324-328: with `j` tubes still to assign and `r` samples remaining, the
current tube receives `min(8 * ceil(r / (8 * j)), r)`. -/
def samplesPerTubeAux : ℕ → ℕ → List ℕ
  | 0, _ => []
  | j + 1, r =>
    min (8 * natCeilDiv r (8 * (j + 1))) r ::
      samplesPerTubeAux j (r - min (8 * natCeilDiv r (8 * (j + 1))) r)

/-- The `samples_per_mm_tube` list built by the planner for `n` samples
and `k` tubes. -/
def samplesPerMMTube (n k : ℕ) : List ℕ := samplesPerTubeAux k n

/-- Default `mastermix_vol` of MasterMix_prep_stations.py (20 uL per
sample). -/
def mastermixVol : ℚ := 20

/-- Default `mastermix_vol_headroom` of MasterMix_prep_stations.py
(multiplier 1.2). -/
def mastermixVolHeadroom : ℚ := 6 / 5

/-- The property `headroom_from_strip_to_pcr` of
MasterMix_prep_stations.py lines 191-193:
`((mastermix_vol_headroom - 1.0) / 2) + 1.0`. -/
def headroomFromStripToPcr : ℚ := (mastermixVolHeadroom - 1) / 2 + 1

/-- Default `mm_strip_capacity` of MasterMix_prep_stations.py (180 uL per
strip well). -/
def mmStripCapacity : ℚ := 180

/-- Modelled from the spec: the number of destination columns, a fixed
width batch grid derived from the sample count (`Station.num_cols` of the
external covmatic_stations base class, `ceil(num_samples / 8)`). -/
def numCols (n : ℕ) : ℕ := natCeilDiv n 8

/-- Number of control wells not already covered by the sample grid,
translated from `control_wells_not_in_samples` of
MasterMix_prep_stations.py: the two control wells sit in plate column 12,
so they are inside the sample grid exactly when `num_cols >= 12`. -/
def controlWellCount (n : ℕ) : ℕ := if 12 ≤ numCols n then 0 else 2

/-- The `volume_for_controls` computed in MasterMix_prep_stations.py line
309. -/
def volumeForControls (n : ℕ) : ℚ := controlWellCount n * mastermixVol

/-- The `volume_to_distribute_to_pcr_plate` of MasterMix_prep_stations.py
line 310. -/
def volumeToPcrPlate (n : ℕ) : ℚ :=
  mastermixVol * numCols n * 8 + volumeForControls n

/-- The `total_volume` of MasterMix_prep_stations.py line 312. -/
def totalVolume (n : ℕ) : ℚ := volumeToPcrPlate n * mastermixVolHeadroom

/-- Modelled from the spec: `uniform_divide(volume, capacity)` of the
external covmatic_stations.utils module, returning
`num_containers = ceil(total_demand / capacity)` together with the even
per-container volume. -/
def uniformDivide (vol cap : ℚ) : ℕ × ℚ :=
  (⌈vol / cap⌉.toNat, vol / (⌈vol / cap⌉.toNat : ℚ))

/-- The `num_tubes` chosen by MasterMix_prep_stations.py line 318 for `n`
samples and tube capacity `cap`. -/
def numTubes (n : ℕ) (cap : ℚ) : ℕ := (uniformDivide (totalVolume n) cap).1

/-- The `volume_to_distribute_to_strip` of MasterMix_prep_stations.py
line 311. -/
def volumeToStrip (n : ℕ) : ℚ := volumeToPcrPlate n * headroomFromStripToPcr

/-- The per-tube `available_volume` assigned in MasterMix_prep_stations.py
line 337: `volume_to_distribute_to_strip / len(mm_tubes)`. -/
def availablePerTube (n : ℕ) (cap : ℚ) : ℚ :=
  volumeToStrip n / (numTubes n cap : ℚ)

/-- The `mm_strips_capacity` constant of MasterMix_prep.py (180 uL). -/
def stripsCapacityPrep : ℚ := 180

/-- The `mm_tube_capacity` constant of MasterMix_prep.py lines 50-52:
`min(mm_strips_capacity * 8, 1800)`. -/
def mmTubeCapacityPrep : ℚ := min (stripsCapacityPrep * 8) 1800

/-- The `liquid_headroom` constant of MasterMix_prep.py (1.6). -/
def liquidHeadroomPrep : ℚ := 8 / 5

/-- The `num_mm_tubes` of MasterMix_prep.py line 140:
`ceil((20 * n + liquid_headroom) / mm_tube_capacity)`. -/
def numMMTubesPrep (n : ℕ) : ℤ :=
  ⌈(20 * (n : ℚ) + liquidHeadroomPrep) / mmTubeCapacityPrep⌉

/-- The per-tube load announced by MasterMix_prep.py lines 146-147:
`MM_PER_SAMPLE * (n + 4) * 1.1`. -/
def mmPerTubePrep (n : ℕ) : ℚ := 20 * ((n : ℚ) + 4) * (11 / 10)

/-- The greedy source-pool consumption of
`BioerMastermixPrep.aspirate_from_tubes` (MasterMix_prep_stations.py
lines 257-283). The pool is the list of `available_volume` fields in
order. The first component is the list of nonzero withdrawal amounts in
order when the walk covers the request, and `none` when the source list
is exhausted first (the for-else `raise`); the second component is the
pool after the in-place decrements performed before returning or
raising. -/
def aspirateFromTubes : List ℚ → ℚ → Option (List ℚ) × List ℚ
  | [], _ => (none, [])
  | a :: rest, left =>
    let take := if left ≤ a then left else a
    let w : List ℚ := if take = 0 then [] else [take]
    if left - take = 0 then
      (some w, (a - take) :: rest)
    else
      let r := aspirateFromTubes rest (left - take)
      (r.1.map (fun ws => w ++ ws), (a - take) :: r.2)

/-- Per-entry withdrawal amounts as the spec words them: each entry in
order yields `min(amount_remaining, entry.available)`. Stated over the
whole pool (entries reached after the request is covered yield zero);
used to compare the source translation against the spec description. -/
def greedyWithdrawals : List ℚ → ℚ → List ℚ
  | [], _ => []
  | a :: rest, left => min left a :: greedyWithdrawals rest (left - min left a)

/-- The nonzero entries of a withdrawal list, kept in order: the code
appends a withdrawal to `aspirate_list` only when `aspirate_vol != 0`. -/
def nonzeroWithdrawals (xs : List ℚ) : List ℚ := xs.filter (fun w => decide (w ≠ 0))

/-- The destination progress tracker
`BioerMastermixPrep.get_next_pcr_plate_dests` (MasterMix_prep_stations.py
lines 295-302), with destination columns represented by their indices:
given `total` columns, `done` already serviced and a request for `n`
more, it returns the next `min(total - done, n)` column indices and the
advanced `done` counter, and fails (`raise`) when no columns remain. -/
def getNextDests (total done n : ℕ) : Option (List ℕ × ℕ) :=
  if done < total then
    some (List.range' done (min (total - done) n), done + min (total - done) n)
  else
    none

/-- The `strip_volume` of MasterMix_prep_stations.py lines 348-349:
`min(mm_strips_capacity, remaining_cols * mastermix_vol * headroom)`,
with `pbv` standing for `mastermix_vol * headroom_from_strip_to_pcr`. -/
def stripVolume (cap pbv : ℚ) (rem : ℕ) : ℚ := min cap ((rem : ℚ) * pbv)

/-- The `samples_per_this_strip` of MasterMix_prep_stations.py line 350:
floor division of the strip volume by the headroom-adjusted per-column
volume. -/
def samplesPerThisStrip (cap pbv : ℚ) (rem : ℕ) : ℤ :=
  ⌊stripVolume cap pbv rem / pbv⌋

/-- The headroom-adjusted per-column volume
`mastermix_vol * headroom_from_strip_to_pcr` used by the strip loop. -/
def perColVolume : ℚ := mastermixVol * headroomFromStripToPcr

/-- The fill/distribute loop of `BioerMastermixPrep.body`
(MasterMix_prep_stations.py lines 345-357), with a fuel argument making
the recursion structural. Each trace entry records the remaining column
count at the start of the cycle, the `strip_volume`, the
`strip_fill_volume` dispensed into the strip, and the number of columns
serviced through `get_next_pcr_plate_dests`; the second component is the
final remaining column count. -/
def stripLoop (cap pbv : ℚ) : ℕ → ℕ → List (ℕ × ℚ × ℚ × ℕ) × ℕ
  | 0, rem => ([], rem)
  | fuel + 1, rem =>
    if rem = 0 then ([], rem)
    else
      let sv := stripVolume cap pbv rem
      let cols := (samplesPerThisStrip cap pbv rem).toNat
      let sfv := (cols : ℚ) * pbv
      let served := min rem cols
      let rest := stripLoop cap pbv fuel (rem - served)
      ((rem, sv, sfv, served) :: rest.1, rest.2)

/-- The tip acquisition step `pick_up(pip)` of MasterMix_prep.py lines
123-131 for one resource class: given the pool size `mx` and the current
consumption counter, it reports whether a replenishment pause fired, the
index of the physical tip picked, and the new counter value. -/
def pickUp (mx count : ℕ) : Bool × ℕ × ℕ :=
  if count = mx then (true, 0, 1) else (false, count, count + 1)

/-- Counter value after `n` acquisitions starting from a zero counter. -/
def tipCountAfter (mx : ℕ) : ℕ → ℕ
  | 0 => 0
  | n + 1 => (pickUp mx (tipCountAfter mx n)).2.2

/-- The persisted tip snapshot of MasterMix_prep.py: a flat record that
may carry a count for each resource class (a key can be absent from the
JSON object). -/
structure TipLogData where
  tips20 : Option ℕ
  tips300 : Option ℕ

/-- The snapshot written at the end of a session (MasterMix_prep.py lines
199-204): both counters are stored. -/
def saveTipLog (c20 c300 : ℕ) : TipLogData := ⟨some c20, some c300⟩

/-- The counter initialisation at the start of a session
(MasterMix_prep.py lines 97-112): a present key restores its count, an
absent key or an absent file yields zero. -/
def loadTipLog : Option TipLogData → ℕ × ℕ
  | some d => (d.tips20.getD 0, d.tips300.getD 0)
  | none => (0, 0)

/-
Arithmetic facts about natural ceiling division, used throughout the
planner proofs.
-/

theorem natCeilDiv_eq_div_succ {r d : ℕ} (hr : 1 ≤ r) (hd : 0 < d) :
    natCeilDiv r d = (r - 1) / d + 1 := by
  have h : r + d - 1 = (r - 1) + d := by omega
  rw [natCeilDiv, h, Nat.add_div_right _ hd]

theorem natCeilDiv_zero {d : ℕ} (hd : 0 < d) : natCeilDiv 0 d = 0 := by
  rw [natCeilDiv]
  exact Nat.div_eq_of_lt (by omega)

theorem le_mul_natCeilDiv {r d : ℕ} (hd : 0 < d) : r ≤ d * natCeilDiv r d := by
  rcases Nat.eq_zero_or_pos r with hr | hr
  · simp [hr]
  · rw [natCeilDiv_eq_div_succ hr hd]
    have h1 := Nat.div_add_mod (r - 1) d
    have h2 := Nat.mod_lt (r - 1) hd
    have h3 : d * ((r - 1) / d + 1) = d * ((r - 1) / d) + d := by ring
    omega

theorem mul_pred_lt_of_natCeilDiv {r d : ℕ} (hd : 0 < d) (hr : 1 ≤ r) :
    d * (natCeilDiv r d - 1) < r := by
  rw [natCeilDiv_eq_div_succ hr hd]
  have h1 := Nat.div_mul_le_self (r - 1) d
  have h2 : d * ((r - 1) / d + 1 - 1) = (r - 1) / d * d := by
    rw [Nat.add_sub_cancel, Nat.mul_comm]
  omega

theorem natCeilDiv_le_of_le_mul {r d b : ℕ} (hd : 0 < d) (h : r ≤ d * b) :
    natCeilDiv r d ≤ b := by
  rcases Nat.eq_zero_or_pos r with hr | hr
  · rw [hr, natCeilDiv_zero hd]
    exact Nat.zero_le b
  · rw [natCeilDiv_eq_div_succ hr hd]
    rcases Nat.eq_zero_or_pos b with hb | hb
    · subst hb
      simp at h
      omega
    · have h1 : (r - 1) / d < b := by
        rw [Nat.div_lt_iff_lt_mul hd]
        calc r - 1 < r := by omega
          _ ≤ d * b := h
          _ = b * d := Nat.mul_comm d b
      omega

theorem lt_natCeilDiv_of_mul_lt {r d b : ℕ} (hd : 0 < d) (h : d * b < r) :
    b < natCeilDiv r d := by
  by_contra hc
  push_neg at hc
  have h1 : d * natCeilDiv r d ≤ d * b := Nat.mul_le_mul_left d hc
  have h2 := le_mul_natCeilDiv (r := r) hd
  omega

theorem natCeilDiv_anti {r d e : ℕ} (hd : 0 < d) (hde : d ≤ e) :
    natCeilDiv r e ≤ natCeilDiv r d := by
  have he : 0 < e := by omega
  apply natCeilDiv_le_of_le_mul he
  calc r ≤ d * natCeilDiv r d := le_mul_natCeilDiv hd
    _ ≤ e * natCeilDiv r d := Nat.mul_le_mul_right _ hde

theorem natCeilDiv_mul_self {d b : ℕ} (hd : 0 < d) : natCeilDiv (d * b) d = b := by
  rcases Nat.eq_zero_or_pos b with hb | hb
  · simp [hb, natCeilDiv_zero hd]
  · have h1 : natCeilDiv (d * b) d ≤ b := natCeilDiv_le_of_le_mul hd le_rfl
    have h2 : b - 1 < natCeilDiv (d * b) d := by
      apply lt_natCeilDiv_of_mul_lt hd
      exact mul_lt_mul_of_pos_left (by omega) hd
    omega

theorem natCeilDiv_eq_zero_iff {r d : ℕ} (hd : 0 < d) :
    natCeilDiv r d = 0 ↔ r = 0 := by
  constructor
  · intro h
    have := le_mul_natCeilDiv (r := r) hd
    rw [h] at this
    omega
  · intro h
    rw [h]
    exact natCeilDiv_zero hd

/-
Structural facts about the per-tube share list.
-/

theorem samplesPerTubeAux_zero (j : ℕ) :
    samplesPerTubeAux j 0 = List.replicate j 0 := by
  induction j with
  | zero => rfl
  | succ j ih =>
    have h : 0 < 8 * (j + 1) := by omega
    simp [samplesPerTubeAux, natCeilDiv_zero h, ih, List.replicate_succ]

theorem samplesPerTubeAux_length (j r : ℕ) :
    (samplesPerTubeAux j r).length = j := by
  induction j generalizing r with
  | zero => rfl
  | succ j ih => simp [samplesPerTubeAux, ih]

theorem samplesPerTubeAux_sum (j r : ℕ) :
    (samplesPerTubeAux (j + 1) r).sum = r := by
  induction j generalizing r with
  | zero =>
    have h : min (8 * natCeilDiv r (8 * (0 + 1))) r = r := by
      apply min_eq_right
      have h8 : 0 < 8 * (0 + 1) := by omega
      calc r ≤ 8 * (0 + 1) * natCeilDiv r (8 * (0 + 1)) := le_mul_natCeilDiv h8
        _ = 8 * natCeilDiv r (8 * (0 + 1)) := by ring_nf
    simp [samplesPerTubeAux, h]
  | succ j ih =>
    have hmin : min (8 * natCeilDiv r (8 * (j + 1 + 1))) r ≤ r := min_le_right _ _
    rw [samplesPerTubeAux, List.sum_cons, ih]
    omega

theorem replicate_zero_getD (j m : ℕ) : (List.replicate j (0 : ℕ)).getD m 0 = 0 := by
  induction j generalizing m with
  | zero => simp [List.getD]
  | succ j ih =>
    cases m with
    | zero => simp [List.replicate_succ]
    | succ m => simp [List.replicate_succ, ih m]

theorem natCeilDiv_head_share (j r : ℕ) :
    natCeilDiv (min (8 * natCeilDiv r (8 * (j + 1))) r) 8 = natCeilDiv r (8 * (j + 1)) := by
  have h8 : (0:ℕ) < 8 := by omega
  rcases le_or_lt (8 * natCeilDiv r (8 * (j + 1))) r with hle | hlt
  · rw [min_eq_left hle]
    exact natCeilDiv_mul_self h8
  · rw [min_eq_right (le_of_lt hlt)]
    have hub : natCeilDiv r 8 ≤ natCeilDiv r (8 * (j + 1)) :=
      natCeilDiv_le_of_le_mul h8 (le_of_lt hlt)
    have hlb : natCeilDiv r (8 * (j + 1)) ≤ natCeilDiv r 8 :=
      natCeilDiv_anti h8 (by omega)
    omega

theorem capped_ceil_le_one {j r : ℕ} (hj : 1 ≤ j)
    (hlt : r < 8 * natCeilDiv r (8 * (j + 1))) :
    natCeilDiv r (8 * (j + 1)) ≤ 1 := by
  rcases Nat.eq_zero_or_pos r with rfl | hr
  · rw [natCeilDiv_zero (by omega)] at hlt
    omega
  · by_contra hc
    push_neg at hc
    have hlow := mul_pred_lt_of_natCeilDiv (r := r) (d := 8 * (j + 1)) (by omega) hr
    have h1 : 8 * 2 * (natCeilDiv r (8 * (j + 1)) - 1) ≤
        8 * (j + 1) * (natCeilDiv r (8 * (j + 1)) - 1) :=
      Nat.mul_le_mul_right _ (by omega)
    omega

theorem next_ceil_bounds {j r : ℕ} (hB1 : 1 ≤ natCeilDiv r (8 * (j + 2)))
    (hun : 8 * natCeilDiv r (8 * (j + 2)) ≤ r) :
    natCeilDiv (r - 8 * natCeilDiv r (8 * (j + 2))) (8 * (j + 1)) ≤
        natCeilDiv r (8 * (j + 2)) ∧
    natCeilDiv r (8 * (j + 2)) ≤
        natCeilDiv (r - 8 * natCeilDiv r (8 * (j + 2))) (8 * (j + 1)) + 1 ∧
    (natCeilDiv (r - 8 * natCeilDiv r (8 * (j + 2))) (8 * (j + 1)) + 1 =
        natCeilDiv r (8 * (j + 2)) →
      8 * (j + 1) * natCeilDiv (r - 8 * natCeilDiv r (8 * (j + 2))) (8 * (j + 1)) ≤
        (r - 8 * natCeilDiv r (8 * (j + 2))) + 7) := by
  obtain ⟨b0, hb0⟩ : ∃ b0, natCeilDiv r (8 * (j + 2)) = b0 + 1 :=
    ⟨natCeilDiv r (8 * (j + 2)) - 1, by omega⟩
  have hr1 : 1 ≤ r := by
    by_contra hr
    have hr0 : r = 0 := by omega
    rw [hr0, natCeilDiv_zero (by omega)] at hb0
    omega
  have hj2 : (0:ℕ) < 8 * (j + 2) := by omega
  have hj1 : (0:ℕ) < 8 * (j + 1) := by omega
  have hup := le_mul_natCeilDiv (r := r) hj2
  have hlow := mul_pred_lt_of_natCeilDiv (r := r) hj2 hr1
  rw [hb0] at hup hlow hun ⊢
  have e1 : 8 * (j + 2) * (b0 + 1) = 8 * (j + 1) * (b0 + 1) + 8 * (b0 + 1) := by ring
  have e2 : 8 * (j + 2) * (b0 + 1 - 1) = 8 * (j + 2) * b0 := by rw [Nat.add_sub_cancel]
  have e3 : 8 * (j + 2) * b0 = 8 * (j + 1) * b0 + 8 * b0 := by ring
  have e4 : 8 * (j + 1) * (b0 + 1) = 8 * (j + 1) * b0 + 8 * (j + 1) := by ring
  rw [e2] at hlow
  have hupper : natCeilDiv (r - 8 * (b0 + 1)) (8 * (j + 1)) ≤ b0 + 1 := by
    apply natCeilDiv_le_of_le_mul hj1
    omega
  have hlower : b0 ≤ natCeilDiv (r - 8 * (b0 + 1)) (8 * (j + 1)) := by
    rcases Nat.eq_zero_or_pos b0 with rfl | hb0pos
    · exact Nat.zero_le _
    · obtain ⟨c0, hc0⟩ : ∃ c0, b0 = c0 + 1 := ⟨b0 - 1, by omega⟩
      have e5 : 8 * (j + 1) * (c0 + 1) = 8 * (j + 1) * c0 + 8 * (j + 1) := by ring
      rw [hc0]
      apply lt_natCeilDiv_of_mul_lt hj1
      rw [hc0] at e3 hlow
      have e6 : 8 * (j + 2) * (c0 + 1) = 8 * (j + 1) * (c0 + 1) + 8 * (c0 + 1) := by ring
      rw [e6] at hlow
      omega
  refine ⟨hupper, by omega, ?_⟩
  intro hdrop
  have hB' : natCeilDiv (r - 8 * (b0 + 1)) (8 * (j + 1)) = b0 := by omega
  rw [hB']
  omega

theorem samplesPerTubeAux_tight (j : ℕ) :
    ∀ r, 8 * (j + 1) * natCeilDiv r (8 * (j + 1)) ≤ r + 7 →
      ∀ s ∈ samplesPerTubeAux (j + 1) r, natCeilDiv s 8 = natCeilDiv r (8 * (j + 1)) := by
  induction j with
  | zero =>
    intro r _ s hs
    have h8 : (0:ℕ) < 8 * (0 + 1) := by omega
    have hmin : min (8 * natCeilDiv r (8 * (0 + 1))) r = r := by
      apply min_eq_right
      calc r ≤ 8 * (0 + 1) * natCeilDiv r (8 * (0 + 1)) := le_mul_natCeilDiv h8
        _ = 8 * natCeilDiv r (8 * (0 + 1)) := by ring_nf
    rw [samplesPerTubeAux, hmin] at hs
    simp only [samplesPerTubeAux, List.mem_singleton] at hs
    subst hs
    have h81 : 8 * (0 + 1) = 8 := by norm_num
    rw [h81]
  | succ j ih =>
    intro r htight s hs
    rw [samplesPerTubeAux] at hs
    set B := natCeilDiv r (8 * (j + 1 + 1)) with hB
    rcases Nat.eq_zero_or_pos B with hB0 | hB1
    · have hr0 : r = 0 := by
        rw [hB] at hB0
        exact (natCeilDiv_eq_zero_iff (by omega)).mp hB0
      subst hr0
      rw [hB0] at hs ⊢
      simp only [Nat.mul_zero, Nat.min_zero, Nat.zero_sub] at hs
      rw [samplesPerTubeAux_zero] at hs
      rcases List.mem_cons.mp hs with h | h
      · rw [h, natCeilDiv_zero (by omega)]
      · rw [List.eq_of_mem_replicate h, natCeilDiv_zero (by omega)]
    · have e1 : 8 * (j + 1 + 1) * B = 8 * (j + 1) * B + 8 * B := by ring
      have e7 : 8 * (j + 1) * 1 ≤ 8 * (j + 1) * B := Nat.mul_le_mul_left _ hB1
      have hun : 8 * B ≤ r := by omega
      have hmin : min (8 * B) r = 8 * B := min_eq_left hun
      rw [hmin] at hs
      rcases List.mem_cons.mp hs with h | h
      · rw [h]
        exact natCeilDiv_mul_self (by omega)
      · have hup : r ≤ 8 * (j + 1 + 1) * B := by rw [hB]; exact le_mul_natCeilDiv (by omega)
        obtain ⟨b0, hb0⟩ : ∃ b0, B = b0 + 1 := ⟨B - 1, by omega⟩
        have e4 : 8 * (j + 1) * (b0 + 1) = 8 * (j + 1) * b0 + 8 * (j + 1) := by ring
        have hBle : natCeilDiv (r - 8 * B) (8 * (j + 1)) ≤ B := by
          apply natCeilDiv_le_of_le_mul (by omega)
          omega
        have hBge : B ≤ natCeilDiv (r - 8 * B) (8 * (j + 1)) := by
          rw [hb0]
          apply Nat.succ_le_of_lt
          apply lt_natCeilDiv_of_mul_lt (by omega)
          have e1b : 8 * (j + 1 + 1) * (b0 + 1) = 8 * (j + 1) * b0 + 8 * (j + 1) + 8 * (b0 + 1) := by
            ring
          rw [hb0] at htight
          rw [e1b] at htight
          omega
        have hBeq : natCeilDiv (r - 8 * B) (8 * (j + 1)) = B := le_antisymm hBle hBge
        have htight2 : 8 * (j + 1) * natCeilDiv (r - 8 * B) (8 * (j + 1)) ≤ (r - 8 * B) + 7 := by
          rw [hBeq]
          omega
        rw [← hBeq]
        exact ih (r - 8 * B) htight2 s h

theorem samplesPerTubeAux_counts (j : ℕ) :
    ∀ r, ∀ s ∈ samplesPerTubeAux (j + 1) r,
      natCeilDiv s 8 ≤ natCeilDiv r (8 * (j + 1)) ∧
      natCeilDiv r (8 * (j + 1)) ≤ natCeilDiv s 8 + 1 := by
  induction j with
  | zero =>
    intro r s hs
    have h8 : (0:ℕ) < 8 * (0 + 1) := by omega
    have hmin : min (8 * natCeilDiv r (8 * (0 + 1))) r = r := by
      apply min_eq_right
      calc r ≤ 8 * (0 + 1) * natCeilDiv r (8 * (0 + 1)) := le_mul_natCeilDiv h8
        _ = 8 * natCeilDiv r (8 * (0 + 1)) := by ring_nf
    rw [samplesPerTubeAux, hmin] at hs
    simp only [samplesPerTubeAux, List.mem_singleton] at hs
    subst hs
    have h81 : 8 * (0 + 1) = 8 := by norm_num
    rw [h81]
    omega
  | succ j ih =>
    intro r s hs
    rw [samplesPerTubeAux] at hs
    rcases List.mem_cons.mp hs with h | h
    · rw [h, natCeilDiv_head_share (j + 1) r]
      omega
    · set B := natCeilDiv r (8 * (j + 1 + 1)) with hB
      rcases Nat.eq_zero_or_pos B with hB0 | hB1
      · have hr0 : r = 0 := by
          rw [hB] at hB0
          exact (natCeilDiv_eq_zero_iff (by omega)).mp hB0
        subst hr0
        rw [hB0] at h ⊢
        simp only [Nat.mul_zero, Nat.min_zero, Nat.zero_sub] at h
        rw [samplesPerTubeAux_zero] at h
        rw [List.eq_of_mem_replicate h, natCeilDiv_zero (by omega)]
        omega
      · rcases le_or_lt (8 * B) r with hun | hcap
        · have hmin : min (8 * B) r = 8 * B := min_eq_left hun
          rw [hmin] at h
          have hconv : (8 : ℕ) * (j + 1 + 1) = 8 * (j + 2) := by ring
          have hBc : B = natCeilDiv r (8 * (j + 2)) := by rw [hB, hconv]
          have hbounds := next_ceil_bounds (j := j) (r := r)
            (by rw [← hBc]; exact hB1) (by rw [← hBc]; exact hun)
          rw [← hBc] at hbounds
          have hup := hbounds.1
          have hlo := hbounds.2.1
          have hdrop := hbounds.2.2
          have htail := ih (r - 8 * B) s h
          rcases Nat.lt_or_ge (natCeilDiv (r - 8 * B) (8 * (j + 1))) B with hlt | hge
          · have hdropeq : natCeilDiv (r - 8 * B) (8 * (j + 1)) + 1 = B := by omega
            have htight2 := hdrop hdropeq
            have hall := samplesPerTubeAux_tight j (r - 8 * B) htight2 s h
            rw [hall]
            omega
          · have heq : natCeilDiv (r - 8 * B) (8 * (j + 1)) = B := by omega
            rw [heq] at htail
            omega
        · have hcle : B ≤ 1 := by
            rw [hB]
            apply capped_ceil_le_one (by omega)
            rw [← hB]
            exact hcap
          have hmin : min (8 * B) r = r := min_eq_right (le_of_lt hcap)
          rw [hmin, Nat.sub_self, samplesPerTubeAux_zero] at h
          rw [List.eq_of_mem_replicate h, natCeilDiv_zero (by omega)]
          omega

theorem samplesPerTubeAux_dvd (j : ℕ) :
    ∀ r i₁ i₂, i₁ < i₂ → i₂ < j → (samplesPerTubeAux j r).getD i₂ 0 ≠ 0 →
      8 ∣ (samplesPerTubeAux j r).getD i₁ 0 := by
  induction j with
  | zero =>
    intro r i₁ i₂ _ h2
    exact absurd h2 (Nat.not_lt_zero _)
  | succ j ih =>
    intro r i₁ i₂ h12 h2 hne
    obtain ⟨i₂', rfl⟩ : ∃ m, i₂ = m + 1 := ⟨i₂ - 1, by omega⟩
    rw [samplesPerTubeAux] at hne ⊢
    rw [List.getD_cons_succ] at hne
    cases i₁ with
    | zero =>
      rw [List.getD_cons_zero]
      rcases le_or_lt (8 * natCeilDiv r (8 * (j + 1))) r with hun | hcap
      · rw [min_eq_left hun]
        exact ⟨_, rfl⟩
      · exfalso
        rw [min_eq_right (le_of_lt hcap), Nat.sub_self, samplesPerTubeAux_zero] at hne
        exact hne (replicate_zero_getD j i₂')
    | succ i₁' =>
      rw [List.getD_cons_succ]
      exact ih _ i₁' i₂' (by omega) (by omega) hne

theorem totalVolume_pos {n : ℕ} (hn : 1 ≤ n) : 0 < totalVolume n := by
  have hcols : 1 ≤ numCols n := by
    have := lt_natCeilDiv_of_mul_lt (r := n) (d := 8) (b := 0) (by omega) (by omega)
    unfold numCols
    omega
  have hc1 : (1:ℚ) ≤ (numCols n : ℚ) := by exact_mod_cast hcols
  have hctrl : (0:ℚ) ≤ (controlWellCount n : ℚ) := by positivity
  unfold totalVolume volumeToPcrPlate volumeForControls mastermixVol mastermixVolHeadroom
  nlinarith

theorem numTubes_ceil (n : ℕ) (C : ℚ) (hn : 1 ≤ n) (hC : 0 < C) :
    1 ≤ numTubes n C ∧ (numTubes n C : ℤ) = ⌈totalVolume n / C⌉ := by
  have hpos : 0 < totalVolume n / C := div_pos (totalVolume_pos hn) hC
  have hceil : 0 < ⌈totalVolume n / C⌉ := Int.ceil_pos.mpr hpos
  simp only [numTubes, uniformDivide]
  omega

/-- C1, amended. For every sample count `n >= 1` and container capacity
`C > 0`, the planner returns `num_containers = ceil(total_demand / C)`
(at least one container), and the per-container sample shares built by
assigning container `i` of `k` the value
`min(8 * ceil(remaining / (8 * (k - i))), remaining)` sum exactly to `n`;
every share strictly before the last nonzero share is a multiple of the
batch width 8; and the shares, measured in whole batches of 8
(`ceil(share / 8)`), differ pairwise by at most one. The original claim
that the raw shares differ pairwise by at most one batch width, and that
every share except possibly the positionally last one is a multiple of
8, both fail on the code (see the counterexample). -/
theorem C1_planner_spec (n : ℕ) (C : ℚ) (hn : 1 ≤ n) (hC : 0 < C) :
    1 ≤ numTubes n C ∧
    (numTubes n C : ℤ) = ⌈totalVolume n / C⌉ ∧
    (samplesPerMMTube n (numTubes n C)).length = numTubes n C ∧
    (samplesPerMMTube n (numTubes n C)).sum = n ∧
    (∀ i₁ i₂ : ℕ, i₁ < i₂ → i₂ < numTubes n C →
      (samplesPerMMTube n (numTubes n C)).getD i₂ 0 ≠ 0 →
      8 ∣ (samplesPerMMTube n (numTubes n C)).getD i₁ 0) ∧
    (∀ s ∈ samplesPerMMTube n (numTubes n C), ∀ t ∈ samplesPerMMTube n (numTubes n C),
      natCeilDiv s 8 ≤ natCeilDiv t 8 + 1) := by
  obtain ⟨hk1, hkc⟩ := numTubes_ceil n C hn hC
  obtain ⟨k0, hk0⟩ : ∃ k0, numTubes n C = k0 + 1 := ⟨numTubes n C - 1, by omega⟩
  refine ⟨hk1, hkc, ?_, ?_, ?_, ?_⟩
  · rw [samplesPerMMTube, samplesPerTubeAux_length]
  · rw [samplesPerMMTube, hk0]
    exact samplesPerTubeAux_sum k0 n
  · intro i₁ i₂ h12 h2 hne
    rw [samplesPerMMTube] at hne ⊢
    exact samplesPerTubeAux_dvd (numTubes n C) n i₁ i₂ h12 h2 hne
  · intro s hsm t htm
    rw [samplesPerMMTube, hk0] at hsm htm
    have h1 := samplesPerTubeAux_counts k0 n s hsm
    have h2 := samplesPerTubeAux_counts k0 n t htm
    omega

/-- Witness for C1: the amended statement evaluated at 17 samples and
capacity 400, where the planner chooses two tubes with shares 16 and 1. -/
theorem C1_planner_spec_witness :
    ((1:ℕ) ≤ 17 ∧ (0:ℚ) < 400) ∧
    (1 ≤ numTubes 17 400 ∧
     (numTubes 17 400 : ℤ) = ⌈totalVolume 17 / 400⌉ ∧
     (samplesPerMMTube 17 (numTubes 17 400)).length = numTubes 17 400 ∧
     (samplesPerMMTube 17 (numTubes 17 400)).sum = 17 ∧
     (∀ i₁ i₂ : ℕ, i₁ < i₂ → i₂ < numTubes 17 400 →
       (samplesPerMMTube 17 (numTubes 17 400)).getD i₂ 0 ≠ 0 →
       8 ∣ (samplesPerMMTube 17 (numTubes 17 400)).getD i₁ 0) ∧
     (∀ s ∈ samplesPerMMTube 17 (numTubes 17 400),
       ∀ t ∈ samplesPerMMTube 17 (numTubes 17 400),
       natCeilDiv s 8 ≤ natCeilDiv t 8 + 1)) :=
  ⟨⟨by norm_num, by norm_num⟩, C1_planner_spec 17 400 (by norm_num) (by norm_num)⟩

/-- Counterexample to C1 as stated. With 17 samples and capacity 400 the
planner picks 2 tubes and shares [16, 1], which differ by 15, more than
one batch width. With 1 sample and capacity 150 it picks 2 tubes and
shares [1, 0]: the first share is not the last one yet is not a multiple
of 8. -/
theorem C1_counterexample :
    numTubes 17 400 = 2 ∧
    samplesPerMMTube 17 2 = [16, 1] ∧
    (samplesPerMMTube 17 2).getD 0 0 - (samplesPerMMTube 17 2).getD 1 0 = 15 ∧
    ¬((samplesPerMMTube 17 2).getD 0 0 - (samplesPerMMTube 17 2).getD 1 0 ≤ 8) ∧
    numTubes 1 150 = 2 ∧
    samplesPerMMTube 1 2 = [1, 0] ∧
    ¬(8 ∣ (samplesPerMMTube 1 2).getD 0 0) := by
  refine ⟨?_, by decide, by decide, by decide, ?_, by decide, by decide⟩
  · have h : totalVolume 17 = 624 := by
      norm_num [totalVolume, volumeToPcrPlate, volumeForControls, controlWellCount,
        numCols, natCeilDiv, mastermixVol, mastermixVolHeadroom]
    have hc : ⌈(624:ℚ) / 400⌉ = 2 := by
      rw [Int.ceil_eq_iff]
      norm_num
    simp only [numTubes, uniformDivide, h, hc]
    rfl
  · have h : totalVolume 1 = 240 := by
      norm_num [totalVolume, volumeToPcrPlate, volumeForControls, controlWellCount,
        numCols, natCeilDiv, mastermixVol, mastermixVolHeadroom]
    have hc : ⌈(240:ℚ) / 150⌉ = 2 := by
      rw [Int.ceil_eq_iff]
      norm_num
    simp only [numTubes, uniformDivide, h, hc]
    rfl

/-
Facts about the greedy source-pool consumption.
-/

theorem aspirateFromTubes_cons_break {a left : ℚ} (rest : List ℚ) (h : left ≤ a) :
    aspirateFromTubes (a :: rest) left =
      (some (if left = 0 then [] else [left]), (a - left) :: rest) := by
  rw [aspirateFromTubes]
  simp only [if_pos h, sub_self, if_pos rfl, if_true]

theorem aspirateFromTubes_cons_go {a left : ℚ} (rest : List ℚ) (hlt : a < left) :
    aspirateFromTubes (a :: rest) left =
      ((aspirateFromTubes rest (left - a)).1.map
        (fun ws => (if a = 0 then [] else [a]) ++ ws),
       (a - a) :: (aspirateFromTubes rest (left - a)).2) := by
  have hne : left - a ≠ 0 := sub_ne_zero_of_ne (ne_of_gt hlt)
  rw [aspirateFromTubes]
  simp only [if_neg (not_le.mpr hlt), if_neg hne]

theorem greedyWithdrawals_zero {xs : List ℚ} (h : ∀ v ∈ xs, 0 ≤ v) :
    greedyWithdrawals xs 0 = List.map (fun _ => 0) xs := by
  induction xs with
  | nil => rfl
  | cons a t ih =>
    have ha : 0 ≤ a := h a (List.mem_cons_self a t)
    have ht : ∀ v ∈ t, 0 ≤ v := fun v hv => h v (List.mem_cons_of_mem a hv)
    rw [greedyWithdrawals, min_eq_left ha, sub_zero, ih ht, List.map_cons]

theorem zipWith_sub_map_zero (xs : List ℚ) :
    List.zipWith (fun a t => a - t) xs (List.map (fun _ => (0:ℚ)) xs) = xs := by
  induction xs with
  | nil => rfl
  | cons a t ih =>
    rw [List.map_cons, List.zipWith_cons_cons, sub_zero, ih]

theorem nonzeroWithdrawals_cons (a : ℚ) (t : List ℚ) :
    nonzeroWithdrawals (a :: t) =
      if a = 0 then nonzeroWithdrawals t else a :: nonzeroWithdrawals t := by
  rw [nonzeroWithdrawals, List.filter_cons]
  by_cases h : a = 0
  · rw [if_pos h]
    have hd : decide (a ≠ 0) = false := decide_eq_false (by simp [h])
    rw [hd]
    simp only [Bool.false_eq_true, if_false]
    rfl
  · rw [if_neg h]
    have hd : decide (a ≠ 0) = true := decide_eq_true h
    rw [hd]
    simp only [if_true]
    rfl

theorem nonzeroWithdrawals_map_zero (xs : List ℚ) :
    nonzeroWithdrawals (List.map (fun _ => (0:ℚ)) xs) = [] := by
  induction xs with
  | nil => rfl
  | cons a t ih =>
    rw [List.map_cons, nonzeroWithdrawals_cons, if_pos rfl, ih]

theorem nonzeroWithdrawals_sum (xs : List ℚ) :
    (nonzeroWithdrawals xs).sum = xs.sum := by
  induction xs with
  | nil => rfl
  | cons a t ih =>
    rw [nonzeroWithdrawals_cons, List.sum_cons]
    by_cases h : a = 0
    · rw [if_pos h, ih, h, zero_add]
    · rw [if_neg h, List.sum_cons, ih]

theorem greedyWithdrawals_sum (pool : List ℚ) :
    ∀ amount : ℚ, (∀ v ∈ pool, 0 ≤ v) → 0 ≤ amount → amount ≤ pool.sum →
      (greedyWithdrawals pool amount).sum = amount := by
  induction pool with
  | nil =>
    intro amount _ h0 hle
    simp only [List.sum_nil] at hle
    simp only [greedyWithdrawals, List.sum_nil]
    linarith
  | cons a rest ih =>
    intro amount hnn h0 hle
    have ha : 0 ≤ a := hnn a (List.mem_cons_self a rest)
    have hrest : ∀ v ∈ rest, 0 ≤ v := fun v hv => hnn v (List.mem_cons_of_mem a hv)
    have hsr : 0 ≤ rest.sum := List.sum_nonneg hrest
    rw [List.sum_cons] at hle
    rcases le_or_lt amount a with hca | hca
    · rw [greedyWithdrawals, min_eq_left hca, sub_self, greedyWithdrawals_zero hrest,
        List.sum_cons]
      have : (List.map (fun _ => (0:ℚ)) rest).sum = 0 := by
        simp
      rw [this, add_zero]
    · rw [greedyWithdrawals, min_eq_right (le_of_lt hca), List.sum_cons,
        ih (amount - a) hrest (by linarith) (by linarith)]
      ring

theorem aspirate_spec (pool : List ℚ) :
    ∀ amount : ℚ, (∀ v ∈ pool, 0 ≤ v) → 0 ≤ amount → amount ≤ pool.sum → pool ≠ [] →
      aspirateFromTubes pool amount =
        (some (nonzeroWithdrawals (greedyWithdrawals pool amount)),
         List.zipWith (fun a t => a - t) pool (greedyWithdrawals pool amount)) := by
  induction pool with
  | nil =>
    intro amount _ _ _ hne
    exact absurd rfl hne
  | cons a rest ih =>
    intro amount hnn h0 hle _
    have ha : 0 ≤ a := hnn a (List.mem_cons_self a rest)
    have hrest : ∀ v ∈ rest, 0 ≤ v := fun v hv => hnn v (List.mem_cons_of_mem a hv)
    have hsr : 0 ≤ rest.sum := List.sum_nonneg hrest
    rw [List.sum_cons] at hle
    rcases le_or_lt amount a with hca | hca
    · rw [aspirateFromTubes_cons_break rest hca]
      rw [greedyWithdrawals, min_eq_left hca, sub_self, greedyWithdrawals_zero hrest]
      rw [nonzeroWithdrawals_cons, List.zipWith_cons_cons, nonzeroWithdrawals_map_zero,
        zipWith_sub_map_zero]
    · have hrne : rest ≠ [] := by
        intro hr
        rw [hr] at hle
        simp only [List.sum_nil, add_zero] at hle
        linarith
      rw [aspirateFromTubes_cons_go rest hca]
      rw [ih (amount - a) hrest (by linarith) (by linarith) hrne]
      rw [greedyWithdrawals, min_eq_right (le_of_lt hca)]
      rw [nonzeroWithdrawals_cons, List.zipWith_cons_cons]
      by_cases hz : a = 0
      · rw [if_pos hz]
        simp only [Option.map_some', if_pos hz, List.nil_append]
      · rw [if_neg hz]
        simp only [Option.map_some', if_neg hz, List.singleton_append]

theorem aspirate_drain :
    ∀ (pool : List ℚ) (amount : ℚ), (∀ v ∈ pool, 0 ≤ v) → pool.sum < amount →
      aspirateFromTubes pool amount = (none, List.replicate pool.length 0) := by
  intro pool
  induction pool with
  | nil =>
    intro amount _ _
    rfl
  | cons a rest ih =>
    intro amount hnn hlt
    have ha : 0 ≤ a := hnn a (List.mem_cons_self a rest)
    have hrest : ∀ v ∈ rest, 0 ≤ v := fun v hv => hnn v (List.mem_cons_of_mem a hv)
    have hsr : 0 ≤ rest.sum := List.sum_nonneg hrest
    rw [List.sum_cons] at hlt
    have hca : a < amount := by linarith
    rw [aspirateFromTubes_cons_go rest hca]
    rw [ih (amount - a) hrest (by linarith)]
    simp only [Option.map_none']
    rw [sub_self, List.length_cons, List.replicate_succ]

theorem aspirate_none_iff (pool : List ℚ) :
    ∀ amount : ℚ, (∀ v ∈ pool, 0 ≤ v) → pool ≠ [] →
      ((aspirateFromTubes pool amount).1 = none ↔ pool.sum < amount) := by
  induction pool with
  | nil =>
    intro amount _ hne
    exact absurd rfl hne
  | cons a rest ih =>
    intro amount hnn _
    have ha : 0 ≤ a := hnn a (List.mem_cons_self a rest)
    have hrest : ∀ v ∈ rest, 0 ≤ v := fun v hv => hnn v (List.mem_cons_of_mem a hv)
    have hsr : 0 ≤ rest.sum := List.sum_nonneg hrest
    rw [List.sum_cons]
    rcases le_or_lt amount a with hca | hca
    · rw [aspirateFromTubes_cons_break rest hca]
      apply iff_of_false
      · simp
      · push_neg
        linarith
    · rw [aspirateFromTubes_cons_go rest hca]
      rcases List.eq_nil_or_concat rest with hrnil | _
      case inl =>
        subst hrnil
        apply iff_of_true
        · rfl
        · simp only [List.sum_nil, add_zero]
          linarith
      case inr =>
        have hrne : rest ≠ [] := by
          rename_i hcat
          obtain ⟨l, b, rfl⟩ := hcat
          simp
        have := ih (amount - a) hrest hrne
        simp only [Option.map_eq_none'] at this ⊢
        rw [this]
        constructor
        · intro h
          linarith
        · intro h
          linarith

/-- C2. SourcePool greedy depletion: for every ordered pool of
containers (nonnegative available volumes, at least one container, as
the planner always creates) and every requested amount between zero and
the total available volume, `aspirate_from_tubes` succeeds; the entries
are visited in fixed first-to-last order, each yielding
`min(amount_remaining, entry.available)`; the returned withdrawal list is
exactly the nonzero per-entry withdrawals in order; every entry is
decremented by exactly the amount withdrawn from it; and the withdrawals
sum to the requested amount. In particular, for a pool holding [50, 30],
consuming 70 returns withdrawals [50, 20] in that order and leaves the
pool at [0, 10]. -/
theorem C2_consume :
    (∀ (pool : List ℚ) (amount : ℚ),
      (∀ v ∈ pool, 0 ≤ v) → 0 ≤ amount → amount ≤ pool.sum → pool ≠ [] →
      aspirateFromTubes pool amount =
        (some (nonzeroWithdrawals (greedyWithdrawals pool amount)),
         List.zipWith (fun a t => a - t) pool (greedyWithdrawals pool amount)) ∧
      (nonzeroWithdrawals (greedyWithdrawals pool amount)).sum = amount) ∧
    aspirateFromTubes [50, 30] 70 = (some [50, 20], [0, 10]) := by
  constructor
  · intro pool amount hnn h0 hle hne
    refine ⟨aspirate_spec pool amount hnn h0 hle hne, ?_⟩
    rw [nonzeroWithdrawals_sum]
    exact greedyWithdrawals_sum pool amount hnn h0 hle
  · norm_num [aspirateFromTubes]

/-- Witness for C2: the general statement applied to the pool [50, 30]
with a request of 70. -/
theorem C2_consume_witness :
    ((∀ v ∈ [(50:ℚ), 30], 0 ≤ v) ∧ (0:ℚ) ≤ 70 ∧ (70:ℚ) ≤ [(50:ℚ), 30].sum ∧
      [(50:ℚ), 30] ≠ []) ∧
    (aspirateFromTubes [50, 30] 70 =
        (some (nonzeroWithdrawals (greedyWithdrawals [50, 30] 70)),
         List.zipWith (fun a t => a - t) [50, 30] (greedyWithdrawals [50, 30] 70)) ∧
      (nonzeroWithdrawals (greedyWithdrawals [50, 30] 70)).sum = 70) :=
  ⟨⟨by norm_num, by norm_num, by norm_num, by simp⟩,
   C2_consume.1 [50, 30] 70 (by norm_num) (by norm_num) (by norm_num) (by simp)⟩

/-- C5. `aspirate_from_tubes` raises (returns no withdrawal list) if and
only if the requested amount exceeds the sum of the available volumes of
the pool; in particular a request for exactly the total available volume
succeeds. Stated for well-formed pools: nonnegative volumes and at least
one container, which the planner guarantees. -/
theorem C5_insufficient_iff :
    ∀ (pool : List ℚ) (amount : ℚ), (∀ v ∈ pool, 0 ≤ v) → pool ≠ [] →
      (((aspirateFromTubes pool amount).1 = none) ↔ pool.sum < amount) ∧
      (aspirateFromTubes pool pool.sum).1 ≠ none := by
  intro pool amount hnn hne
  refine ⟨aspirate_none_iff pool amount hnn hne, ?_⟩
  intro h
  rw [aspirate_none_iff pool pool.sum hnn hne] at h
  exact lt_irrefl _ h

/-- Witness for C5: a pool of [50, 30] and a request of 100 fail, and the
failure test agrees with 80 < 100; a request of exactly 80 succeeds. -/
theorem C5_insufficient_iff_witness :
    ((∀ v ∈ [(50:ℚ), 30], 0 ≤ v) ∧ [(50:ℚ), 30] ≠ []) ∧
    ((((aspirateFromTubes [50, 30] 100).1 = none) ↔ [(50:ℚ), 30].sum < 100) ∧
      (aspirateFromTubes [50, 30] [(50:ℚ), 30].sum).1 ≠ none) :=
  ⟨⟨by norm_num, by simp⟩, C5_insufficient_iff [50, 30] 100 (by norm_num) (by simp)⟩

/-- C10. Non-atomicity of consumption on error: whenever the requested
amount strictly exceeds the total available volume, the walk drains every
entry to zero before raising, so at the moment the exception fires the
bookkeeping state is all zeros (not rolled back), and no withdrawal list
is returned (first component `none`), hence the per-withdrawal aspirate
loop that runs only after the list is fully built never issues a
physical aspirate. -/
theorem C10_error_drains_pool :
    ∀ (pool : List ℚ) (amount : ℚ), (∀ v ∈ pool, 0 ≤ v) → pool.sum < amount →
      aspirateFromTubes pool amount = (none, List.replicate pool.length 0) :=
  aspirate_drain

/-- Witness for C10: the pool [50, 30] with a request of 81 raises and
leaves both counters at zero. -/
theorem C10_error_drains_pool_witness :
    ((∀ v ∈ [(50:ℚ), 30], 0 ≤ v) ∧ [(50:ℚ), 30].sum < 81) ∧
    aspirateFromTubes [50, 30] 81 = (none, List.replicate ([(50:ℚ), 30]).length 0) :=
  ⟨⟨by norm_num, by norm_num⟩, C10_error_drains_pool [50, 30] 81 (by norm_num) (by norm_num)⟩

/-
Destination progress tracker.
-/

/-- C4. `get_next_pcr_plate_dests`: every call made while
`done < total` returns exactly `min(n, total - done)` column indices in
fixed left-to-right order starting at `done` and advances the counter by
the count returned, keeping `done <= total`; columns returned by two
successive calls never overlap; and a call made when `done = total`
raises. -/
theorem C4_tracker :
    (∀ total done n : ℕ, done < total →
      ∃ dests done2,
        getNextDests total done n = some (dests, done2) ∧
        dests.length = min n (total - done) ∧
        done2 = done + dests.length ∧
        done2 ≤ total ∧
        dests = List.range' done dests.length) ∧
    (∀ (total d0 n1 n2 : ℕ) (l1 l2 : List ℕ) (d1 d2 : ℕ),
      getNextDests total d0 n1 = some (l1, d1) →
      getNextDests total d1 n2 = some (l2, d2) →
      ∀ x ∈ l1, x ∉ l2) ∧
    (∀ total n : ℕ, getNextDests total total n = none) := by
  refine ⟨?_, ?_, ?_⟩
  · intro total done n hlt
    refine ⟨List.range' done (min (total - done) n), done + min (total - done) n, ?_, ?_, ?_, ?_, ?_⟩
    · rw [getNextDests, if_pos hlt]
    · rw [List.length_range', Nat.min_comm]
    · rw [List.length_range']
    · have := Nat.min_le_left (total - done) n
      omega
    · rw [List.length_range']
  · intro total d0 n1 n2 l1 l2 d1 d2 h1 h2 x hx
    rw [getNextDests] at h1 h2
    by_cases hc1 : d0 < total
    · rw [if_pos hc1] at h1
      injection h1 with h1
      injection h1 with hl1 hd1
      by_cases hc2 : d1 < total
      · rw [if_pos hc2] at h2
        injection h2 with h2
        injection h2 with hl2 _
        subst hl1
        subst hl2
        rw [List.mem_range'] at hx
        rw [List.mem_range']
        omega
      · rw [if_neg hc2] at h2
        exact absurd h2 (by simp)
    · rw [if_neg hc1] at h1
      exact absurd h1 (by simp)
  · intro total n
    rw [getNextDests, if_neg (lt_irrefl total)]

/-- Witness for C4: a tracker over 5 columns with 2 done and a request
for 10 more returns columns 2, 3, 4 and stops at 5; two successive calls
from 0 are disjoint; and a finished tracker raises. -/
theorem C4_tracker_witness :
    ((2:ℕ) < 5) ∧
    (∃ dests done2,
      getNextDests 5 2 10 = some (dests, done2) ∧
      dests.length = min 10 (5 - 2) ∧
      done2 = 2 + dests.length ∧
      done2 ≤ 5 ∧
      dests = List.range' 2 dests.length) ∧
    (∀ x ∈ [0, 1], x ∉ [2, 3]) ∧
    getNextDests 4 4 3 = none :=
  ⟨by norm_num, C4_tracker.1 5 2 10 (by norm_num),
   C4_tracker.2.1 6 0 2 2 [0, 1] [2, 3] 2 4 (by decide) (by decide),
   C4_tracker.2.2 4 3⟩

/-
Tip pool counters.
-/

theorem tipCountAfter_le {mx : ℕ} (hmx : 1 ≤ mx) : ∀ n, tipCountAfter mx n ≤ mx := by
  intro n
  induction n with
  | zero => exact Nat.zero_le mx
  | succ n ih =>
    rw [tipCountAfter, pickUp]
    by_cases h : tipCountAfter mx n = mx
    · rw [if_pos h]
      exact hmx
    · rw [if_neg h]
      show tipCountAfter mx n + 1 ≤ mx
      omega

theorem tipCountAfter_eq_of_le {mx : ℕ} : ∀ i, i ≤ mx → tipCountAfter mx i = i := by
  intro i
  induction i with
  | zero => intro _; rfl
  | succ i ih =>
    intro hle
    rw [tipCountAfter, ih (by omega), pickUp, if_neg (by omega)]

/-- C6. TipPool exhaustion behaviour of `pick_up`: starting from a zero
counter with pool size `mx >= 1`, each of the first `mx` acquisitions
fires no replenishment pause and uses the physical unit at the
pre-increment counter index (indices 0, 1, ..., mx - 1 in order, none
skipped, which is `tips[count - 1]` after the increment); the counter
never exceeds `mx`; and the next acquisition after exactly `mx` fires
exactly one replenishment pause, resets the counter to zero before
proceeding, and uses unit 0. -/
theorem C6_tip_pool (mx : ℕ) (hmx : 1 ≤ mx) :
    (∀ n, tipCountAfter mx n ≤ mx) ∧
    (∀ i, i < mx → pickUp mx (tipCountAfter mx i) = (false, i, i + 1)) ∧
    pickUp mx (tipCountAfter mx mx) = (true, 0, 1) := by
  refine ⟨tipCountAfter_le hmx, ?_, ?_⟩
  · intro i hi
    rw [tipCountAfter_eq_of_le i (by omega), pickUp, if_neg (by omega)]
  · rw [tipCountAfter_eq_of_le mx le_rfl, pickUp, if_pos rfl]

/-- Witness for C6: a pool of 3 units, acquired five times. -/
theorem C6_tip_pool_witness :
    (1 ≤ 3) ∧
    ((∀ n, tipCountAfter 3 n ≤ 3) ∧
     (∀ i, i < 3 → pickUp 3 (tipCountAfter 3 i) = (false, i, i + 1)) ∧
     pickUp 3 (tipCountAfter 3 3) = (true, 0, 1)) :=
  ⟨by norm_num, C6_tip_pool 3 (by norm_num)⟩

/-
Tip snapshot persistence.
-/

/-- C9. Tip-counter persistence round-trip: loading the snapshot saved
with counters (c20, c300) restores exactly those counters; loading with
no snapshot yields zero counters; and a session resumed with counter `c`
below the pool size acquires unit `c` next, which is not among the
already-consumed units 0, ..., c - 1. -/
theorem C9_tip_roundtrip :
    (∀ c20 c300 : ℕ, loadTipLog (some (saveTipLog c20 c300)) = (c20, c300)) ∧
    loadTipLog none = (0, 0) ∧
    (∀ mx c : ℕ, c < mx →
      (pickUp mx c).2.1 = c ∧ (pickUp mx c).2.1 ∉ List.range c) := by
  refine ⟨?_, rfl, ?_⟩
  · intro c20 c300
    rfl
  · intro mx c hc
    rw [pickUp, if_neg (by omega)]
    exact ⟨rfl, by simp⟩

/-- Witness for C9: saving counters (7, 3) and reloading restores them,
and a session resumed at count 7 with pool size 96 uses unit 7 next. -/
theorem C9_tip_roundtrip_witness :
    loadTipLog (some (saveTipLog 7 3)) = (7, 3) ∧
    loadTipLog none = (0, 0) ∧
    ((7:ℕ) < 96) ∧
    ((pickUp 96 7).2.1 = 7 ∧ (pickUp 96 7).2.1 ∉ List.range 7) :=
  ⟨C9_tip_roundtrip.1 7 3, C9_tip_roundtrip.2.1, by norm_num,
   C9_tip_roundtrip.2.2 96 7 (by norm_num)⟩

/-
Strip fill/distribute loop.
-/

theorem stripLoop_rem_zero (cap pbv : ℚ) (fuel : ℕ) :
    stripLoop cap pbv fuel 0 = ([], 0) := by
  cases fuel with
  | zero => rfl
  | succ fuel => simp [stripLoop]

theorem stripLoop_succ (cap pbv : ℚ) (fuel rem : ℕ) (h : rem ≠ 0) :
    stripLoop cap pbv (fuel + 1) rem =
      ((rem, stripVolume cap pbv rem,
        ((samplesPerThisStrip cap pbv rem).toNat : ℚ) * pbv,
        min rem (samplesPerThisStrip cap pbv rem).toNat) ::
          (stripLoop cap pbv fuel
            (rem - min rem (samplesPerThisStrip cap pbv rem).toNat)).1,
       (stripLoop cap pbv fuel
         (rem - min rem (samplesPerThisStrip cap pbv rem).toNat)).2) := by
  simp only [stripLoop, if_neg h]

theorem samplesPerThisStrip_le {cap pbv : ℚ} (hp : 0 < pbv) (rem : ℕ) :
    (samplesPerThisStrip cap pbv rem).toNat ≤ rem := by
  have h2 : ((rem:ℚ) * pbv) / pbv = (rem:ℚ) := mul_div_cancel_right₀ _ (ne_of_gt hp)
  have h3 : ⌊min cap ((rem:ℚ) * pbv) / pbv⌋ ≤ (rem:ℤ) := by
    calc ⌊min cap ((rem:ℚ) * pbv) / pbv⌋ ≤ ⌊((rem:ℚ) * pbv) / pbv⌋ := by
          apply Int.floor_le_floor
          exact (div_le_div_iff_of_pos_right hp).mpr (min_le_right _ _)
      _ = rem := by rw [h2, Int.floor_natCast]
  rw [samplesPerThisStrip, stripVolume]
  omega

theorem samplesPerThisStrip_pos {cap pbv : ℚ} (hp : 0 < pbv) (hcap : pbv ≤ cap)
    {rem : ℕ} (hr : 1 ≤ rem) :
    1 ≤ (samplesPerThisStrip cap pbv rem).toNat := by
  have hmin : pbv ≤ min cap ((rem:ℚ) * pbv) := by
    apply le_min hcap
    calc pbv = 1 * pbv := (one_mul pbv).symm
      _ ≤ (rem:ℚ) * pbv := by
        apply mul_le_mul_of_nonneg_right _ (le_of_lt hp)
        exact_mod_cast hr
  have h1 : (1:ℚ) ≤ min cap ((rem:ℚ) * pbv) / pbv := (one_le_div hp).mpr hmin
  have h2 : (1:ℤ) ≤ ⌊min cap ((rem:ℚ) * pbv) / pbv⌋ := by
    rw [Int.le_floor]
    exact_mod_cast h1
  rw [samplesPerThisStrip, stripVolume]
  omega

theorem stripFill_le {cap pbv : ℚ} (hp : 0 < pbv) (hc : 0 ≤ cap) (rem : ℕ) :
    ((samplesPerThisStrip cap pbv rem).toNat : ℚ) * pbv ≤ stripVolume cap pbv rem := by
  have hsv : 0 ≤ stripVolume cap pbv rem := by
    rw [stripVolume]
    exact le_min hc (by positivity)
  have hfl : (0:ℤ) ≤ ⌊stripVolume cap pbv rem / pbv⌋ :=
    Int.floor_nonneg.mpr (div_nonneg hsv (le_of_lt hp))
  have h1 : ((samplesPerThisStrip cap pbv rem).toNat : ℚ) ≤ stripVolume cap pbv rem / pbv := by
    rw [samplesPerThisStrip]
    calc ((⌊stripVolume cap pbv rem / pbv⌋.toNat : ℕ) : ℚ)
        = ((⌊stripVolume cap pbv rem / pbv⌋ : ℤ) : ℚ) := by
          exact_mod_cast congrArg (fun z => ((z:ℤ) : ℚ)) (Int.toNat_of_nonneg hfl)
      _ ≤ stripVolume cap pbv rem / pbv := Int.floor_le _
  calc ((samplesPerThisStrip cap pbv rem).toNat : ℚ) * pbv
      ≤ (stripVolume cap pbv rem / pbv) * pbv := mul_le_mul_of_nonneg_right h1 (le_of_lt hp)
    _ = stripVolume cap pbv rem := div_mul_cancel₀ _ (ne_of_gt hp)

/-- C3, amended. On every cycle of the fill/distribute loop, with
positive per-column volume `pbv = mastermix_vol * headroom` and
nonnegative buffer capacity, the strip volume is
`min(buffer_capacity, remaining_batches * per_batch_volume)` and the
number of batches serviced is `floor(strip_volume / per_batch_volume)` —
i.e. the formulas of the claim hold with `pending_headroom = 0` on every
cycle, the first one included. The code applies the same formula on
every cycle; no additive headroom term exists, so nothing is "added only
on the first fill" (see the counterexample). -/
theorem C3_cycle_formula (cap pbv : ℚ) (hp : 0 < pbv) (hc : 0 ≤ cap) :
    ∀ fuel rem : ℕ, ∀ e ∈ (stripLoop cap pbv fuel rem).1,
      0 < e.1 ∧
      e.2.1 = min cap ((e.1 : ℚ) * pbv) ∧
      ((e.2.2.2 : ℕ) : ℤ) = ⌊e.2.1 / pbv⌋ ∧
      e.2.2.1 = ((⌊e.2.1 / pbv⌋).toNat : ℚ) * pbv := by
  intro fuel
  induction fuel with
  | zero =>
    intro rem e he
    exact absurd he (List.not_mem_nil e)
  | succ fuel ih =>
    intro rem e he
    by_cases h0 : rem = 0
    · subst h0
      rw [stripLoop_rem_zero] at he
      exact absurd he (List.not_mem_nil e)
    · rw [stripLoop_succ cap pbv fuel rem h0] at he
      rcases List.mem_cons.mp he with h | h
      · subst h
        have hsv : 0 ≤ stripVolume cap pbv rem := by
          rw [stripVolume]
          exact le_min hc (by positivity)
        have hfl : (0:ℤ) ≤ samplesPerThisStrip cap pbv rem := by
          rw [samplesPerThisStrip]
          exact Int.floor_nonneg.mpr (div_nonneg hsv (le_of_lt hp))
        have hle := @samplesPerThisStrip_le cap pbv hp rem
        refine ⟨by omega, ?_, ?_, ?_⟩
        · show stripVolume cap pbv rem = min cap ((rem:ℚ) * pbv)
          rw [stripVolume]
        · show ((min rem (samplesPerThisStrip cap pbv rem).toNat : ℕ) : ℤ) =
            ⌊stripVolume cap pbv rem / pbv⌋
          rw [min_eq_right hle]
          show ((samplesPerThisStrip cap pbv rem).toNat : ℤ) = samplesPerThisStrip cap pbv rem
          exact Int.toNat_of_nonneg hfl
        · show ((samplesPerThisStrip cap pbv rem).toNat : ℚ) * pbv =
            ((⌊stripVolume cap pbv rem / pbv⌋).toNat : ℚ) * pbv
          rfl
      · exact ih _ e h

/-- Witness for C3: the amended per-cycle formulas instantiated on the
default configuration (capacity 180, per-column volume 22) over a
12-column session. -/
theorem C3_cycle_formula_witness :
    ((0:ℚ) < 22 ∧ (0:ℚ) ≤ 180) ∧
    (∀ e ∈ (stripLoop 180 22 12 12).1,
      0 < e.1 ∧
      e.2.1 = min 180 ((e.1 : ℚ) * 22) ∧
      ((e.2.2.2 : ℕ) : ℤ) = ⌊e.2.1 / 22⌋ ∧
      e.2.2.1 = ((⌊e.2.1 / 22⌋).toNat : ℚ) * 22) :=
  ⟨⟨by norm_num, by norm_num⟩, C3_cycle_formula 180 22 (by norm_num) (by norm_num) 12 12⟩

/-- Counterexample to C3 as stated. In the default 64-sample session
(8 columns, capacity 180, per-column volume 22) the loop performs a
single fill whose strip volume is exactly 176 = 8 * 22 =
min(180, 8 * 22): no headroom term is added on this first (and only)
fill. Had the fixed strip-stage headroom constant
(headroom_from_strip_to_pcr = 11/10, the only fixed headroom in the
component) been added on the first fill as the claim states, the volume
would have been min(180, 8 * 22 + 11/10) = 177.1, not 176. -/
theorem C3_counterexample :
    stripLoop mmStripCapacity perColVolume (numCols 64) (numCols 64) =
      ([(8, 176, 176, 8)], 0) ∧
    (176:ℚ) = min mmStripCapacity ((8:ℚ) * perColVolume) ∧
    min mmStripCapacity ((8:ℚ) * perColVolume + headroomFromStripToPcr) ≠ 176 := by
  have hcols : numCols 64 = 8 := by decide
  have hsps : samplesPerThisStrip mmStripCapacity perColVolume 8 = 8 := by
    rw [samplesPerThisStrip, stripVolume]
    norm_num [mmStripCapacity, perColVolume, mastermixVol, headroomFromStripToPcr,
      mastermixVolHeadroom, min_def]
  have hsv : stripVolume mmStripCapacity perColVolume 8 = 176 := by
    rw [stripVolume]
    norm_num [mmStripCapacity, perColVolume, mastermixVol, headroomFromStripToPcr,
      mastermixVolHeadroom, min_def]
  refine ⟨?_, ?_, ?_⟩
  · rw [hcols]
    show stripLoop mmStripCapacity perColVolume (7 + 1) 8 = ([(8, 176, 176, 8)], 0)
    rw [stripLoop_succ mmStripCapacity perColVolume 7 8 (by norm_num), hsps, hsv]
    have h8 : (8:ℤ).toNat = 8 := rfl
    norm_num [stripLoop_rem_zero, h8, perColVolume, mastermixVol,
      headroomFromStripToPcr, mastermixVolHeadroom]
  · norm_num [mmStripCapacity, perColVolume, mastermixVol, headroomFromStripToPcr,
      mastermixVolHeadroom, min_def]
  · norm_num [mmStripCapacity, perColVolume, mastermixVol, headroomFromStripToPcr,
      mastermixVolHeadroom, min_def]

theorem stripLoop_terminates (cap pbv : ℚ) (hp : 0 < pbv) (hcap : pbv ≤ cap) :
    ∀ fuel rem : ℕ, rem ≤ fuel →
      (stripLoop cap pbv fuel rem).2 = 0 ∧
      (stripLoop cap pbv fuel rem).1.length ≤ rem ∧
      ∀ e ∈ (stripLoop cap pbv fuel rem).1,
        1 ≤ e.2.2.2 ∧ e.2.2.1 ≤ min cap ((e.1 : ℚ) * pbv) := by
  have hc : (0:ℚ) ≤ cap := le_of_lt (lt_of_lt_of_le hp hcap)
  intro fuel
  induction fuel with
  | zero =>
    intro rem hle
    have h0 : rem = 0 := by omega
    subst h0
    exact ⟨rfl, by simp [stripLoop], fun e he => absurd he (List.not_mem_nil e)⟩
  | succ fuel ih =>
    intro rem hle
    by_cases h0 : rem = 0
    · subst h0
      rw [stripLoop_rem_zero]
      exact ⟨rfl, by simp, fun e he => absurd he (List.not_mem_nil e)⟩
    · rw [stripLoop_succ cap pbv fuel rem h0]
      have hpos : 1 ≤ (samplesPerThisStrip cap pbv rem).toNat :=
        samplesPerThisStrip_pos hp hcap (by omega)
      have hserved : 1 ≤ min rem (samplesPerThisStrip cap pbv rem).toNat :=
        le_min (by omega) hpos
      have hrec := ih (rem - min rem (samplesPerThisStrip cap pbv rem).toNat) (by omega)
      refine ⟨hrec.1, ?_, ?_⟩
      · show ((rem, stripVolume cap pbv rem,
            ((samplesPerThisStrip cap pbv rem).toNat : ℚ) * pbv,
            min rem (samplesPerThisStrip cap pbv rem).toNat) ::
              (stripLoop cap pbv fuel
                (rem - min rem (samplesPerThisStrip cap pbv rem).toNat)).1).length ≤ rem
        rw [List.length_cons]
        have := hrec.2.1
        omega
      · intro e he
        rcases List.mem_cons.mp he with h | h
        · subst h
          refine ⟨hserved, ?_⟩
          show ((samplesPerThisStrip cap pbv rem).toNat : ℚ) * pbv ≤ min cap ((rem:ℚ) * pbv)
          have hfill := @stripFill_le cap pbv hp hc rem
          rw [stripVolume] at hfill
          exact hfill
        · exact hrec.2.2 e h

/-- C7. Scheduler termination: for every `num_samples >= 1`, with the
configured per-batch volume (22 uL per strip well per column, the
headroom-adjusted `mastermix_vol`) and buffer capacity 180 (at least one
headroom-adjusted batch volume), the fill/distribute loop run with fuel
equal to the initial column count performs at least one cycle, services
at least one destination batch on every cycle, and ends with zero
remaining batches within `num_cols` cycles; every fill volume is at most
`min(buffer_capacity, remaining demand)`, so the last fill is sized to at
most the remaining demand. -/
theorem C7_termination (n : ℕ) (hn : 1 ≤ n) :
    (stripLoop mmStripCapacity perColVolume (numCols n) (numCols n)).2 = 0 ∧
    1 ≤ (stripLoop mmStripCapacity perColVolume (numCols n) (numCols n)).1.length ∧
    (stripLoop mmStripCapacity perColVolume (numCols n) (numCols n)).1.length ≤ numCols n ∧
    (∀ e ∈ (stripLoop mmStripCapacity perColVolume (numCols n) (numCols n)).1,
      1 ≤ e.2.2.2 ∧ e.2.2.1 ≤ min mmStripCapacity ((e.1 : ℚ) * perColVolume)) := by
  have hp : (0:ℚ) < perColVolume := by
    norm_num [perColVolume, mastermixVol, headroomFromStripToPcr, mastermixVolHeadroom]
  have hcap : perColVolume ≤ mmStripCapacity := by
    norm_num [perColVolume, mastermixVol, headroomFromStripToPcr, mastermixVolHeadroom,
      mmStripCapacity]
  have hcols : 1 ≤ numCols n := by
    have := lt_natCeilDiv_of_mul_lt (r := n) (d := 8) (b := 0) (by omega) (by omega)
    unfold numCols
    omega
  have hmain := stripLoop_terminates mmStripCapacity perColVolume hp hcap
    (numCols n) (numCols n) le_rfl
  refine ⟨hmain.1, ?_, hmain.2.1, hmain.2.2⟩
  obtain ⟨f, hf⟩ : ∃ f, numCols n = f + 1 := ⟨numCols n - 1, by omega⟩
  rw [hf, stripLoop_succ mmStripCapacity perColVolume f (f + 1) (by omega)]
  rw [List.length_cons]
  omega

/-- Witness for C7: the 96-sample default session terminates with zero
remaining columns within 12 cycles, each cycle serving at least one
column within capacity. -/
theorem C7_termination_witness :
    ((1:ℕ) ≤ 96) ∧
    ((stripLoop mmStripCapacity perColVolume (numCols 96) (numCols 96)).2 = 0 ∧
     1 ≤ (stripLoop mmStripCapacity perColVolume (numCols 96) (numCols 96)).1.length ∧
     (stripLoop mmStripCapacity perColVolume (numCols 96) (numCols 96)).1.length ≤ numCols 96 ∧
     (∀ e ∈ (stripLoop mmStripCapacity perColVolume (numCols 96) (numCols 96)).1,
       1 ≤ e.2.2.2 ∧ e.2.2.1 ≤ min mmStripCapacity ((e.1 : ℚ) * perColVolume))) :=
  ⟨by norm_num, C7_termination 96 (by norm_num)⟩

/-- C8, evaluated at the failing configuration. MasterMix_prep.py as
checked in (NUM_SAMPLES = 80, tube capacity min(180 * 8, 1800) = 1440)
instructs the operator to load 1848 uL per tube, strictly above the
1440 uL physical capacity, chooses 2 tubes, and contains no
configuration check: no ConfigurationError is raised before dispensing.
The stations revision cannot even reach such a state (its per-tube
volume total / ceil(total / cap) never exceeds cap: at the default
num_samples = 96 substitute 80, capacity 1500, it is 984 <= 1500), and
its lone assert compares total_volume with the per-tube available
volume (1968 > 902 here), a condition that holds, so it raises
nothing. -/
theorem C8_capacity_check_missing :
    mmTubeCapacityPrep = 1440 ∧
    mmPerTubePrep 80 = 1848 ∧
    mmTubeCapacityPrep < mmPerTubePrep 80 ∧
    numMMTubesPrep 80 = 2 ∧
    (uniformDivide (totalVolume 80) 1500).2 = 984 ∧
    (984:ℚ) ≤ 1500 ∧
    totalVolume 80 > availablePerTube 80 1500 := by
  have htot : totalVolume 80 = 1968 := by
    norm_num [totalVolume, volumeToPcrPlate, volumeForControls, controlWellCount,
      numCols, natCeilDiv, mastermixVol, mastermixVolHeadroom]
  have hceil : ⌈(1968:ℚ) / 1500⌉ = 2 := by
    rw [Int.ceil_eq_iff]
    norm_num
  refine ⟨?_, ?_, ?_, ?_, ?_, by norm_num, ?_⟩
  · norm_num [mmTubeCapacityPrep, stripsCapacityPrep, min_def]
  · norm_num [mmPerTubePrep]
  · norm_num [mmTubeCapacityPrep, stripsCapacityPrep, mmPerTubePrep, min_def]
  · have h : (20 * ((80:ℕ):ℚ) + liquidHeadroomPrep) / mmTubeCapacityPrep = 1001 / 900 := by
      norm_num [liquidHeadroomPrep, mmTubeCapacityPrep, stripsCapacityPrep, min_def]
    rw [numMMTubesPrep, h, Int.ceil_eq_iff]
    norm_num
  · simp only [uniformDivide, htot, hceil]
    have h2 : (2:ℤ).toNat = 2 := rfl
    rw [h2]
    norm_num
  · have hstrip : volumeToStrip 80 = 1804 := by
      norm_num [volumeToStrip, volumeToPcrPlate, volumeForControls, controlWellCount,
        numCols, natCeilDiv, mastermixVol, headroomFromStripToPcr, mastermixVolHeadroom]
    have htubes : numTubes 80 1500 = 2 := by
      simp only [numTubes, uniformDivide, htot, hceil]
      rfl

    rw [availablePerTube, hstrip, htot, htubes]
    norm_num
